import Mathlib

/-!
Verification of the time-segment-matching decoding procedure of the
SRM functional-alignment notebook (src/srm/SRM.ipynb).

The notebook function `time_segment_matching(data, win_size)` is embedded
below over rational-valued matrices represented as lists of rows.  A
correlation value c / sqrt d is represented exactly by the pair (c, d)
(constructor `CorrEntry.val`); the decidable order on these pairs is
proved equivalent to the real order on the denoted values, so the argmax
computations of the classifier are executable while provably matching the
numeric semantics of the source.  The zscore / nan_to_num normalisation of
the source is modelled over the reals (`zscoreNanCol`) and the bridge
theorem `corrMtx_faithful` shows that the executable correlation matrix
denotes exactly the value the source pipeline computes.
-/

namespace SRMSpec

/-- a matrix with rational entries, stored as a list of rows -/
abbrev Mat := List (List ℚ)

namespace Mat

/-- number of rows, the first component of numpy shape -/
def rows (A : Mat) : ℕ := A.length

/-- number of columns, read from the first row (mirrors taking shape of data[0]) -/
def cols (A : Mat) : ℕ := (A.headD []).length

/-- entry at row i, column j (0 outside the stored lists) -/
def entry (A : Mat) (i j : ℕ) : ℚ := (A.getD i []).getD j 0

/-- column j of the matrix, as a vector of length `A.rows` -/
def col (A : Mat) (j : ℕ) : List ℚ := A.map (fun row => row.getD j 0)

/-- the matrix is rectangular with m rows and n columns -/
def IsRect (A : Mat) (m n : ℕ) : Prop := A.length = m ∧ ∀ r ∈ A, r.length = n

/-- elementwise sum of two matrices of the same shape -/
def add (A B : Mat) : Mat := List.zipWith (fun ra rb => List.zipWith (· + ·) ra rb) A B

/-- elementwise difference of two matrices of the same shape -/
def sub (A B : Mat) : Mat := List.zipWith (fun ra rb => List.zipWith (· - ·) ra rb) A B

end Mat

/-- the m by n all-zero matrix (mirrors np.zeros) -/
def matZero (m n : ℕ) : Mat := List.replicate m (List.replicate n (0 : ℚ))

/-- mean of a list of rationals (0 for the empty list, matching 0 / 0 = 0) -/
def mean (x : List ℚ) : ℚ := x.sum / (x.length : ℚ)

/-- sum of squared deviations from the mean (written with self-multiplication
so that the kernel can evaluate it) -/
def devSq (x : List ℚ) : ℚ := (x.map (fun v => (v - mean x) * (v - mean x))).sum

/-- sum of products of deviations from the respective means (unnormalised covariance) -/
def covSum (x y : List ℚ) : ℚ :=
  (List.zipWith (fun a b => (a - mean x) * (b - mean y)) x y).sum

/-- sample variance with divisor n - 1 (ddof = 1); it is 0 exactly in the
degenerate cases where scipy zscore would produce nan entries -/
def sampleVar (x : List ℚ) : ℚ := devSq x / ((x.length : ℚ) - 1)

/-- an entry of the correlation matrix: either the negative-infinity marker
written by the exclusion mask, or the exact algebraic value c / sqrt d
(interpreted as 0 when d is not positive, which happens precisely for
zero-variance columns) -/
inductive CorrEntry where
  | ninf : CorrEntry
  | val : ℚ → ℚ → CorrEntry
deriving DecidableEq

/-- real value denoted by a (c, d) pair: c / sqrt d, or 0 when d is not positive -/
noncomputable def sval (c d : ℚ) : ℝ :=
  if 0 < d then (c : ℝ) / Real.sqrt (d : ℝ) else 0

/-- normalise a (c, d) pair so that the second component is positive while the
denoted real value is unchanged -/
def normPair (c d : ℚ) : ℚ × ℚ := if 0 < d then (c, d) else (0, 1)

/-- decidable comparison of the exact values c1 / sqrt d1 and c2 / sqrt d2,
phrased with signs and squares so that it stays inside the rationals -/
def valLe (c1 d1 c2 d2 : ℚ) : Prop :=
  ((normPair c1 d1).1 ≤ 0 ∧ 0 ≤ (normPair c2 d2).1) ∨
  (0 ≤ (normPair c1 d1).1 ∧ 0 ≤ (normPair c2 d2).1 ∧
    (normPair c1 d1).1 * (normPair c1 d1).1 * (normPair c2 d2).2 ≤
      (normPair c2 d2).1 * (normPair c2 d2).1 * (normPair c1 d1).2) ∨
  ((normPair c1 d1).1 ≤ 0 ∧ (normPair c2 d2).1 ≤ 0 ∧
    (normPair c2 d2).1 * (normPair c2 d2).1 * (normPair c1 d1).2 ≤
      (normPair c1 d1).1 * (normPair c1 d1).1 * (normPair c2 d2).2)

instance (c1 d1 c2 d2 : ℚ) : Decidable (valLe c1 d1 c2 d2) :=
  inferInstanceAs (Decidable
    ((((normPair c1 d1).1 ≤ 0 ∧ 0 ≤ (normPair c2 d2).1) ∨
      (0 ≤ (normPair c1 d1).1 ∧ 0 ≤ (normPair c2 d2).1 ∧
        (normPair c1 d1).1 * (normPair c1 d1).1 * (normPair c2 d2).2 ≤
          (normPair c2 d2).1 * (normPair c2 d2).1 * (normPair c1 d1).2) ∨
      ((normPair c1 d1).1 ≤ 0 ∧ (normPair c2 d2).1 ≤ 0 ∧
        (normPair c2 d2).1 * (normPair c2 d2).1 * (normPair c1 d1).2 ≤
          (normPair c1 d1).1 * (normPair c1 d1).1 * (normPair c2 d2).2))))

/-- order on correlation entries: the mask marker below every value -/
def CorrEntry.le : CorrEntry → CorrEntry → Prop
  | .ninf, _ => True
  | .val _ _, .ninf => False
  | .val c1 d1, .val c2 d2 => valLe c1 d1 c2 d2

instance : ∀ e f : CorrEntry, Decidable (e.le f)
  | .ninf, _ => isTrue trivial
  | .val _ _, .ninf => isFalse id
  | .val c1 d1, .val c2 d2 => inferInstanceAs (Decidable (valLe c1 d1 c2 d2))

/-- strict order on correlation entries -/
def CorrEntry.lt (e f : CorrEntry) : Prop := ¬ f.le e

instance (e f : CorrEntry) : Decidable (e.lt f) :=
  inferInstanceAs (Decidable (¬ f.le e))

/-- real value of a correlation entry, with the mask marker sent to the bottom
element of WithBot -/
noncomputable def CorrEntry.toWB : CorrEntry → WithBot ℝ
  | .ninf => ⊥
  | .val c d => ((sval c d : ℝ) : WithBot ℝ)

/-- real value of an unmasked correlation entry (the mask marker is never
interpreted through this function) -/
noncomputable def CorrEntry.toR : CorrEntry → ℝ
  | .ninf => 0
  | .val c d => sval c d

/-- Modelled from the spec: brainiak.fcma.util.compute_correlation (imported by
the notebook, its source is not part of this repository) returns the Pearson
correlation between row i of its first argument and row j of its second
argument, and tolerates zero-variance rows by defining their correlation as 0
rather than a non-finite value.  A single entry for feature vectors x and y is
the exact value covSum x y / sqrt (devSq x * devSq y), captured below as a
CorrEntry.val pair whose denotation is 0 in the zero-variance case. -/
def pearsonEntry (x y : List ℚ) : CorrEntry := .val (covSum x y) (devSq x * devSq y)

/-- segment matrix of one subject: mirrors the source loop writing
data[subj][:, w:(w+nseg)] into the row block w*ndim..(w+1)*ndim, so output
row w*ndim + d, column j holds subject entry (d, w + j) -/
def segmentMatrix (ndim win_size nseg : ℕ) (X : Mat) : Mat :=
  (List.range (ndim * win_size)).map fun r =>
    (List.range nseg).map fun j => X.entry (r % ndim) (r / ndim + j)

/-- group training matrix trn_data: mirrors the accumulation over all subjects
(including the eventual held-out one) of their segment matrices -/
def groupSum (ndim win_size nseg : ℕ) (data : List Mat) : Mat :=
  data.foldl (fun acc X => acc.add (segmentMatrix ndim win_size nseg X))
    (matZero (ndim * win_size) nseg)

/-- tst_data, the held-out subject's segment matrix -/
def tstData (ndim win_size nseg : ℕ) (data : List Mat) (i : ℕ) : Mat :=
  segmentMatrix ndim win_size nseg (data.getD i [])

/-- corrected template: mirrors the expression trn_data - tst_data feeding the
zscore step of the source -/
def correctedTemplate (ndim win_size nseg : ℕ) (data : List Mat) (i : ℕ) : Mat :=
  (groupSum ndim win_size nseg data).sub (tstData ndim win_size nseg data i)

/-- correlation matrix corr_mtx = compute_correlation(B.T, A.T): entry (p, q)
is the Pearson correlation between column p of B and column q of A.  The
source first standardises the columns of A and B (zscore, ddof 1, then
nan_to_num); the theorem corrMtx_faithful below proves that the entries here
denote exactly the values computed that way. -/
def corrMtx (A B : Mat) (nseg : ℕ) : List (List CorrEntry) :=
  (List.range nseg).map fun p =>
    (List.range nseg).map fun q => pearsonEntry (B.col p) (A.col q)

/-- exclusion predicate of the masking loop: abs (i - j) < win_size and i ≠ j -/
def maskCond (win_size i j : ℕ) : Prop :=
  ((i : ℤ) - (j : ℤ)).natAbs < win_size ∧ i ≠ j

instance (w i j : ℕ) : Decidable (maskCond w i j) :=
  inferInstanceAs (Decidable (((i : ℤ) - (j : ℤ)).natAbs < w ∧ i ≠ j))

/-- the masking double loop over i, j in range nseg: temporally overlapping
off-diagonal entries are overwritten with negative infinity -/
def applyMask (win_size nseg : ℕ) (M : List (List CorrEntry)) : List (List CorrEntry) :=
  (List.range nseg).map fun i =>
    (List.range nseg).map fun j =>
      if maskCond win_size i j then .ninf else (M.getD i []).getD j .ninf

/-- the masked correlation matrix used to classify held-out subject i -/
def subjectMasked (ndim win_size nseg : ℕ) (data : List Mat) (i : ℕ) : List (List CorrEntry) :=
  applyMask win_size nseg
    (corrMtx (correctedTemplate ndim win_size nseg data i) (tstData ndim win_size nseg data i)
      nseg)

/-- running pass of np.argmax: keep the current best index and value, replacing
them only on a strict improvement, which preserves the first maximum -/
def argmaxAux : List CorrEntry → ℕ → ℕ → CorrEntry → ℕ
  | [], _, bi, _ => bi
  | e :: rest, idx, bi, bv =>
      if bv.lt e then argmaxAux rest (idx + 1) idx e else argmaxAux rest (idx + 1) bi bv

/-- np.argmax over one row: index of the first maximal entry -/
def npArgmax (row : List CorrEntry) : ℕ :=
  match row with
  | [] => 0
  | e :: rest => argmaxAux rest 1 0 e

/-- max_idx = np.argmax(corr_mtx, axis=1) for held-out subject i -/
def maxIdx (ndim win_size nseg : ℕ) (data : List Mat) (i : ℕ) : List ℕ :=
  (subjectMasked ndim win_size nseg data i).map npArgmax

/-- accuracy of one held-out subject: sum (max_idx == range nseg) / nseg -/
def subjectAccuracy (ndim win_size nseg : ℕ) (data : List Mat) (i : ℕ) : ℚ :=
  ((((maxIdx ndim win_size nseg data i).zip (List.range nseg)).countP
      fun pr => pr.1 == pr.2 : ℕ) : ℚ) / (nseg : ℚ)

/-- failure modes: the first three are the validation errors named by the
specification, the remaining three are the Python-level exceptions the
notebook code can actually raise -/
inductive TSMError where
  | invalidWindow : TSMError
  | shapeMismatch : TSMError
  | emptyInput : TSMError
  | pythonIndexError : TSMError
  | pythonValueError : TSMError
  | pythonZeroDivision : TSMError
deriving DecidableEq

/-- the notebook procedure time_segment_matching(data, win_size).  Reading
data[0].shape raises IndexError on an empty list; np.zeros with the negative
dimension nsample - win_size raises ValueError when win_size > nsample; the
division by nseg = 0 raises ZeroDivisionError at the first held-out subject
when win_size = nsample; otherwise one accuracy per subject is returned.  The
model is faithful for subject matrices sharing the row count of data[0] and
holding at least the columns the slices read (extra columns are ignored by
the slicing, exactly as in the source). -/
def time_segment_matching (data : List Mat) (win_size : ℕ) : Except TSMError (List ℚ) :=
  match data with
  | [] => .error .pythonIndexError
  | X0 :: rest =>
      if X0.cols < win_size then .error .pythonValueError
      else if X0.cols = win_size then .error .pythonZeroDivision
      else .ok ((List.range (X0 :: rest).length).map fun i =>
        subjectAccuracy X0.rows win_size (X0.cols - win_size) (X0 :: rest) i)

/-- np.mean of the returned accuracy vector -/
def meanAccuracy (accs : List ℚ) : ℚ := accs.sum / (accs.length : ℚ)

instance {ε α : Type} [DecidableEq ε] [DecidableEq α] : DecidableEq (Except ε α) := fun x y =>
  match x, y with
  | .error e1, .error e2 =>
      decidable_of_iff (e1 = e2) ⟨fun h => by rw [h], fun h => by injection h⟩
  | .error _, .ok _ => isFalse fun h => Except.noConfusion h
  | .ok _, .error _ => isFalse fun h => Except.noConfusion h
  | .ok a1, .ok a2 =>
      decidable_of_iff (a1 = a2) ⟨fun h => by rw [h], fun h => by injection h⟩

instance (A : Mat) (m n : ℕ) : Decidable (A.IsRect m n) :=
  inferInstanceAs (Decidable (A.length = m ∧ ∀ r ∈ A, r.length = n))

/-- scipy.stats.zscore(col, axis=0, ddof=1) followed by np.nan_to_num, on one
column: the column is centred and divided by its sample standard deviation;
when the sample variance is 0 (zero variance, or fewer than two entries) every
standardised entry is nan and nan_to_num replaces the whole column by zeros -/
noncomputable def zscoreNanCol (x : List ℚ) : List ℝ :=
  if sampleVar x = 0 then List.replicate x.length 0
  else x.map fun v : ℚ => ((v : ℝ) - ((mean x : ℚ) : ℝ)) / Real.sqrt (((sampleVar x : ℚ)) : ℝ)

/-- mean over the reals -/
noncomputable def meanR (x : List ℝ) : ℝ := x.sum / (x.length : ℝ)

/-- sum of squared deviations over the reals -/
noncomputable def devSqR (x : List ℝ) : ℝ := (x.map (fun v => (v - meanR x) ^ 2)).sum

/-- sum of products of deviations over the reals -/
noncomputable def covSumR (x y : List ℝ) : ℝ :=
  (List.zipWith (fun a b => (a - meanR x) * (b - meanR y)) x y).sum

/-- Modelled from the spec: the correlation primitive over the reals, Pearson
correlation between two feature vectors, with zero-variance arguments giving 0
(the division by sqrt 0 = 0 yields 0, matching the required substitution) -/
noncomputable def pearsonR (x y : List ℝ) : ℝ :=
  covSumR x y / Real.sqrt (devSqR x * devSqR y)

/-- faithful real-valued correlation matrix, including the zscore and
nan_to_num steps of the source applied to the columns of A and B -/
noncomputable def corrMtxR (A B : Mat) (nseg : ℕ) : List (List ℝ) :=
  (List.range nseg).map fun p =>
    (List.range nseg).map fun q => pearsonR (zscoreNanCol (B.col p)) (zscoreNanCol (A.col q))

/-- comparing two quotients by square roots reduces to a sign analysis with
squared cross-multiplications -/
theorem div_sqrt_le_iff (a b p q : ℝ) (hp : 0 < p) (hq : 0 < q) :
    a / Real.sqrt p ≤ b / Real.sqrt q ↔
      (a ≤ 0 ∧ 0 ≤ b) ∨ (0 ≤ a ∧ 0 ≤ b ∧ a * a * q ≤ b * b * p) ∨
        (a ≤ 0 ∧ b ≤ 0 ∧ b * b * p ≤ a * a * q) := by
  have hsp : 0 < Real.sqrt p := Real.sqrt_pos.mpr hp
  have hsq : 0 < Real.sqrt q := Real.sqrt_pos.mpr hq
  have hp2 : Real.sqrt p * Real.sqrt p = p := Real.mul_self_sqrt hp.le
  have hq2 : Real.sqrt q * Real.sqrt q = q := Real.mul_self_sqrt hq.le
  have eXX : a * a * q = (a * Real.sqrt q) * (a * Real.sqrt q) := by
    have h' : (a * Real.sqrt q) * (a * Real.sqrt q) = a * a * (Real.sqrt q * Real.sqrt q) := by
      ring
    rw [h', hq2]
  have eYY : b * b * p = (b * Real.sqrt p) * (b * Real.sqrt p) := by
    have h' : (b * Real.sqrt p) * (b * Real.sqrt p) = b * b * (Real.sqrt p * Real.sqrt p) := by
      ring
    rw [h', hp2]
  rw [div_le_div_iff hsp hsq]
  constructor
  · intro h
    rcases le_total a 0 with ha | ha <;> rcases le_total b 0 with hb | hb
    · refine Or.inr (Or.inr ⟨ha, hb, ?_⟩)
      have hY : b * Real.sqrt p ≤ 0 := mul_nonpos_iff.mpr (Or.inr ⟨hb, hsp.le⟩)
      rw [eXX, eYY]
      have := mul_self_le_mul_self (a := -(b * Real.sqrt p)) (b := -(a * Real.sqrt q))
        (by linarith) (by linarith)
      nlinarith [this]
    · exact Or.inl ⟨ha, hb⟩
    · have hX : 0 ≤ a * Real.sqrt q := mul_nonneg ha hsq.le
      have hY : b * Real.sqrt p ≤ 0 := mul_nonpos_iff.mpr (Or.inr ⟨hb, hsp.le⟩)
      have ha0 : a * Real.sqrt q = 0 := le_antisymm (h.trans hY) hX
      have hb0 : b * Real.sqrt p = 0 := le_antisymm hY (ha0 ▸ h)
      have ha' : a = 0 := by
        rcases mul_eq_zero.mp ha0 with h' | h'
        · exact h'
        · exact absurd h' hsq.ne'
      have hb' : b = 0 := by
        rcases mul_eq_zero.mp hb0 with h' | h'
        · exact h'
        · exact absurd h' hsp.ne'
      exact Or.inl ⟨le_of_eq ha', ge_of_eq hb'⟩
    · refine Or.inr (Or.inl ⟨ha, hb, ?_⟩)
      have hX : 0 ≤ a * Real.sqrt q := mul_nonneg ha hsq.le
      rw [eXX, eYY]
      exact mul_self_le_mul_self hX h
  · intro h
    rcases h with ⟨ha, hb⟩ | ⟨ha, hb, hle⟩ | ⟨ha, hb, hle⟩
    · have h1 : a * Real.sqrt q ≤ 0 := mul_nonpos_iff.mpr (Or.inr ⟨ha, hsq.le⟩)
      have h2 : 0 ≤ b * Real.sqrt p := mul_nonneg hb hsp.le
      linarith
    · have hX : 0 ≤ a * Real.sqrt q := mul_nonneg ha hsq.le
      have hY : 0 ≤ b * Real.sqrt p := mul_nonneg hb hsp.le
      rw [eXX, eYY] at hle
      have h1 : a * Real.sqrt q = Real.sqrt ((a * Real.sqrt q) * (a * Real.sqrt q)) :=
        (Real.sqrt_mul_self hX).symm
      have h2 : b * Real.sqrt p = Real.sqrt ((b * Real.sqrt p) * (b * Real.sqrt p)) :=
        (Real.sqrt_mul_self hY).symm
      rw [h1, h2]
      exact Real.sqrt_le_sqrt hle
    · have hna : 0 ≤ -(a * Real.sqrt q) :=
        neg_nonneg.mpr (mul_nonpos_iff.mpr (Or.inr ⟨ha, hsq.le⟩))
      have hnb : 0 ≤ -(b * Real.sqrt p) :=
        neg_nonneg.mpr (mul_nonpos_iff.mpr (Or.inr ⟨hb, hsp.le⟩))
      rw [eXX, eYY] at hle
      have hle' : -(b * Real.sqrt p) * -(b * Real.sqrt p) ≤
          -(a * Real.sqrt q) * -(a * Real.sqrt q) := by nlinarith [hle]
      have h1 : -(a * Real.sqrt q) = Real.sqrt (-(a * Real.sqrt q) * -(a * Real.sqrt q)) :=
        (Real.sqrt_mul_self hna).symm
      have h2 : -(b * Real.sqrt p) = Real.sqrt (-(b * Real.sqrt p) * -(b * Real.sqrt p)) :=
        (Real.sqrt_mul_self hnb).symm
      have : -(b * Real.sqrt p) ≤ -(a * Real.sqrt q) := by
        rw [h1, h2]
        exact Real.sqrt_le_sqrt hle'
      linarith

/-- the normalised pair always has a positive second component -/
theorem normPair_pos (c d : ℚ) : 0 < (normPair c d).2 := by
  by_cases h : 0 < d
  · simpa [normPair, h] using h
  · norm_num [normPair, h]

/-- the normalised pair denotes the same real value -/
theorem sval_normPair (c d : ℚ) :
    sval c d = ((normPair c d).1 : ℝ) / Real.sqrt (((normPair c d).2 : ℚ) : ℝ) := by
  by_cases h : 0 < d
  · simp [sval, normPair, h]
  · simp [sval, normPair, h]

/-- the decidable rational comparison agrees with the real order on the
denoted values -/
theorem valLe_iff (c1 d1 c2 d2 : ℚ) :
    valLe c1 d1 c2 d2 ↔ sval c1 d1 ≤ sval c2 d2 := by
  rw [sval_normPair c1 d1, sval_normPair c2 d2,
    div_sqrt_le_iff _ _ _ _ (by exact_mod_cast normPair_pos c1 d1)
      (by exact_mod_cast normPair_pos c2 d2)]
  unfold valLe
  constructor
  · intro h; exact_mod_cast h
  · intro h; exact_mod_cast h

/-- the order on correlation entries agrees with the order of their real
denotations in WithBot -/
theorem ceLe_iff (e f : CorrEntry) : e.le f ↔ e.toWB ≤ f.toWB := by
  cases e <;> cases f <;>
    simp [CorrEntry.le, CorrEntry.toWB, valLe_iff, WithBot.coe_le_coe,
      WithBot.not_coe_le_bot]

/-- the strict order on correlation entries agrees with the strict real order -/
theorem ceLt_iff (e f : CorrEntry) : e.lt f ↔ e.toWB < f.toWB := by
  unfold CorrEntry.lt
  rw [ceLe_iff]
  exact not_le

theorem ceLe_refl (e : CorrEntry) : e.le e := (ceLe_iff e e).mpr le_rfl

theorem ceLe_trans {a b c : CorrEntry} (h1 : a.le b) (h2 : b.le c) : a.le c :=
  (ceLe_iff a c).mpr (le_trans ((ceLe_iff a b).mp h1) ((ceLe_iff b c).mp h2))

theorem ceLe_of_lt {a b : CorrEntry} (h : a.lt b) : a.le b :=
  (ceLe_iff a b).mpr (le_of_lt ((ceLt_iff a b).mp h))

theorem ceLt_of_le_of_lt {a b c : CorrEntry} (h1 : a.le b) (h2 : b.lt c) : a.lt c :=
  (ceLt_iff a c).mpr (lt_of_le_of_lt ((ceLe_iff a b).mp h1) ((ceLt_iff b c).mp h2))

theorem ceLe_of_not_lt {a b : CorrEntry} (h : ¬ a.lt b) : b.le a := not_not.mp h

/-- getD of a map over List.range evaluates the function at indices in range -/
theorem rangeMap_getD {α : Type} (n : ℕ) (f : ℕ → α) (i : ℕ) (d : α) (h : i < n) :
    ((List.range n).map f).getD i d = f i := by
  rw [List.getD_eq_getElem _ _ (by simpa using h)]
  simp

/-- getD of a map in terms of getD of the original list -/
theorem getD_map_of_lt {α β : Type} (l : List α) (f : α → β) (i : ℕ) (d : β) (dl : α)
    (h : i < l.length) :
    (l.map f).getD i d = f (l.getD i dl) := by
  rw [List.getD_eq_getElem _ _ (by simpa using h), List.getD_eq_getElem _ _ h]
  simp

/-- the running argmax pass returns the first index of a maximal entry of the
whole traversed list: pre is the already-scanned prefix, bi and bv the current
best index and value -/
theorem argmaxAux_spec (rest : List CorrEntry) :
    ∀ (pre : List CorrEntry) (bi : ℕ) (bv : CorrEntry),
      bi < pre.length →
      pre.getD bi .ninf = bv →
      (∀ q, q < pre.length → (pre.getD q .ninf).le bv) →
      (∀ q, q < bi → (pre.getD q .ninf).lt bv) →
      argmaxAux rest pre.length bi bv < (pre ++ rest).length ∧
      (∀ q, q < (pre ++ rest).length →
        ((pre ++ rest).getD q .ninf).le
          ((pre ++ rest).getD (argmaxAux rest pre.length bi bv) .ninf)) ∧
      (∀ q, q < argmaxAux rest pre.length bi bv →
        ((pre ++ rest).getD q .ninf).lt
          ((pre ++ rest).getD (argmaxAux rest pre.length bi bv) .ninf)) := by
  induction rest with
  | nil =>
      intro pre bi bv hbi hbv hle hlt
      simp only [argmaxAux, List.append_nil]
      refine ⟨hbi, fun q hq => ?_, fun q hq => ?_⟩
      · rw [hbv]; exact hle q hq
      · rw [hbv]; exact hlt q hq
  | cons e rest ih =>
      intro pre bi bv hbi hbv hle hlt
      have hgetE : (pre ++ [e]).getD pre.length .ninf = e := by
        rw [List.getD_append_right _ _ _ _ le_rfl]
        simp
      by_cases hcase : bv.lt e
      · have heq : argmaxAux (e :: rest) pre.length bi bv =
            argmaxAux rest (pre ++ [e]).length pre.length e := by
          simp [argmaxAux, hcase]
        have hinv1 : pre.length < (pre ++ [e]).length := by simp
        have hinv3 : ∀ q, q < (pre ++ [e]).length → ((pre ++ [e]).getD q .ninf).le e := by
          intro q hq
          rcases Nat.lt_or_ge q pre.length with h' | h'
          · rw [List.getD_append _ _ _ _ h']
            exact ceLe_trans (hle q h') (ceLe_of_lt hcase)
          · have : q = pre.length := by
              have : q < pre.length + 1 := by simpa using hq
              omega
            rw [this, hgetE]
            exact ceLe_refl e
        have hinv4 : ∀ q, q < pre.length → ((pre ++ [e]).getD q .ninf).lt e := by
          intro q hq
          rw [List.getD_append _ _ _ _ hq]
          exact ceLt_of_le_of_lt (hle q hq) hcase
        have := ih (pre ++ [e]) pre.length e hinv1 hgetE hinv3 hinv4
        rw [heq]
        simpa [List.append_assoc] using this
      · have heq : argmaxAux (e :: rest) pre.length bi bv =
            argmaxAux rest (pre ++ [e]).length bi bv := by
          simp [argmaxAux, hcase]
        have hinv1 : bi < (pre ++ [e]).length := by
          simp only [List.length_append, List.length_singleton]
          omega
        have hinv2 : (pre ++ [e]).getD bi .ninf = bv := by
          rw [List.getD_append _ _ _ _ hbi]; exact hbv
        have hinv3 : ∀ q, q < (pre ++ [e]).length → ((pre ++ [e]).getD q .ninf).le bv := by
          intro q hq
          rcases Nat.lt_or_ge q pre.length with h' | h'
          · rw [List.getD_append _ _ _ _ h']
            exact hle q h'
          · have : q = pre.length := by
              have : q < pre.length + 1 := by simpa using hq
              omega
            rw [this, hgetE]
            exact ceLe_of_not_lt hcase
        have hinv4 : ∀ q, q < bi → ((pre ++ [e]).getD q .ninf).lt bv := by
          intro q hq
          rw [List.getD_append _ _ _ _ (lt_trans hq hbi)]
          exact hlt q hq
        have := ih (pre ++ [e]) bi bv hinv1 hinv2 hinv3 hinv4
        rw [heq]
        simpa [List.append_assoc] using this

/-- np.argmax of a nonempty row returns a valid index whose entry is maximal,
every strictly earlier entry being strictly smaller (first-maximum tie break) -/
theorem npArgmax_spec (row : List CorrEntry) (h : row ≠ []) :
    npArgmax row < row.length ∧
    (∀ q, q < row.length → (row.getD q .ninf).le (row.getD (npArgmax row) .ninf)) ∧
    (∀ q, q < npArgmax row → (row.getD q .ninf).lt (row.getD (npArgmax row) .ninf)) := by
  match row, h with
  | e :: rest, _ =>
    have hle : ∀ q, q < ([e] : List CorrEntry).length → (([e] : List CorrEntry).getD q .ninf).le e := by
      intro q hq
      have : q = 0 := by simpa using Nat.lt_one_iff.mp (by simpa using hq)
      subst this
      simpa using ceLe_refl e
    have hlt : ∀ q, q < 0 → (([e] : List CorrEntry).getD q .ninf).lt e := by
      intro q hq
      exact absurd hq (Nat.not_lt_zero q)
    have := argmaxAux_spec rest [e] 0 e (by simp) (by simp) hle hlt
    simpa [npArgmax] using this

/-- coercion of a rational list into the reals -/
def castL (x : List ℚ) : List ℝ := x.map fun q : ℚ => (q : ℝ)

@[simp]
theorem castL_nil : castL [] = [] := rfl

@[simp]
theorem castL_cons (a : ℚ) (t : List ℚ) : castL (a :: t) = ((a : ℝ)) :: castL t := rfl

@[simp]
theorem castL_length (x : List ℚ) : (castL x).length = x.length := by
  unfold castL
  exact List.length_map _ _

theorem castL_ne_nil (x : List ℚ) (h : x ≠ []) : castL x ≠ [] := by
  unfold castL
  intro hc
  exact h (List.map_eq_nil.mp hc)

theorem castL_sum (x : List ℚ) : (castL x).sum = ((x.sum : ℚ) : ℝ) := by
  induction x with
  | nil => simp
  | cons a t ih =>
      simp only [castL_cons, List.sum_cons, ih]
      push_cast
      ring

theorem meanR_castL (x : List ℚ) : meanR (castL x) = ((mean x : ℚ) : ℝ) := by
  unfold meanR mean
  rw [castL_sum, castL_length]
  push_cast
  ring

theorem sum_castMap (x : List ℚ) (g : ℚ → ℚ) :
    (x.map fun v => ((g v : ℚ) : ℝ)).sum = (((x.map g).sum : ℚ) : ℝ) := by
  induction x with
  | nil => simp
  | cons a t ih =>
      simp only [List.map_cons, List.sum_cons, ih]
      push_cast
      ring

theorem devSqR_castL (x : List ℚ) : devSqR (castL x) = ((devSq x : ℚ) : ℝ) := by
  unfold devSqR devSq
  rw [meanR_castL]
  unfold castL
  rw [List.map_map]
  have hfun : ((fun v : ℝ => (v - ((mean x : ℚ) : ℝ)) ^ 2) ∘ fun q : ℚ => (q : ℝ)) =
      fun v : ℚ => ((((v - mean x) * (v - mean x) : ℚ)) : ℝ) := by
    funext v
    simp only [Function.comp]
    push_cast
    ring
  rw [hfun]
  exact sum_castMap x fun v => (v - mean x) * (v - mean x)

theorem sum_castZip (x y : List ℚ) (g : ℚ → ℚ → ℚ) :
    (List.zipWith (fun a b => ((g a b : ℚ) : ℝ)) x y).sum =
      (((List.zipWith g x y).sum : ℚ) : ℝ) := by
  induction x generalizing y with
  | nil => simp
  | cons a t ih =>
      cases y with
      | nil => simp
      | cons b u =>
          simp only [List.zipWith_cons_cons, List.sum_cons, ih]
          push_cast
          ring

theorem covSumR_castL (x y : List ℚ) : covSumR (castL x) (castL y) = ((covSum x y : ℚ) : ℝ) := by
  unfold covSumR covSum
  rw [meanR_castL, meanR_castL]
  unfold castL
  rw [List.zipWith_map]
  have hfun : (fun (a b : ℚ) =>
      (((a : ℚ) : ℝ) - ((mean x : ℚ) : ℝ)) * (((b : ℚ) : ℝ) - ((mean y : ℚ) : ℝ))) =
      fun a b => ((((a - mean x) * (b - mean y) : ℚ)) : ℝ) := by
    funext a b
    push_cast
    ring
  rw [hfun]
  exact sum_castZip x y _

theorem devSq_nonneg (x : List ℚ) : 0 ≤ devSq x := by
  apply List.sum_nonneg
  intro a ha
  obtain ⟨v, _, rfl⟩ := List.mem_map.mp ha
  exact mul_self_nonneg _

theorem toR_val (c d : ℚ) : (CorrEntry.val c d).toR = sval c d := rfl

theorem pearsonR_castL (x y : List ℚ) : pearsonR (castL x) (castL y) = (pearsonEntry x y).toR := by
  have hR : (pearsonEntry x y).toR = sval (covSum x y) (devSq x * devSq y) := rfl
  rw [hR]
  unfold pearsonR sval
  rw [covSumR_castL, devSqR_castL, devSqR_castL]
  by_cases h : 0 < devSq x * devSq y
  · rw [if_pos h, Rat.cast_mul]
  · rw [if_neg h]
    have h0 : devSq x * devSq y = 0 :=
      le_antisymm (not_lt.mp h) (mul_nonneg (devSq_nonneg x) (devSq_nonneg y))
    have hcast : ((devSq x : ℚ) : ℝ) * ((devSq y : ℚ) : ℝ) = 0 := by exact_mod_cast h0
    rw [hcast, Real.sqrt_zero, div_zero]

theorem sum_map_affine (x : List ℝ) (a m : ℝ) :
    (x.map fun v => (v - m) * a).sum = (x.sum - x.length * m) * a := by
  induction x with
  | nil => simp
  | cons b t ih =>
      simp only [List.map_cons, List.sum_cons, List.length_cons, ih]
      push_cast
      ring

theorem meanR_map_affine (x : List ℝ) (hx : x ≠ []) (a m : ℝ) :
    meanR (x.map fun v => (v - m) * a) = (meanR x - m) * a := by
  unfold meanR
  rw [sum_map_affine, List.length_map]
  have hn : (x.length : ℝ) ≠ 0 :=
    Nat.cast_ne_zero.mpr (List.length_pos.mpr hx).ne'
  field_simp

theorem sum_map_mul_left (x : List ℝ) (c : ℝ) (g : ℝ → ℝ) :
    (x.map fun v => c * g v).sum = c * (x.map g).sum := by
  induction x with
  | nil => simp
  | cons b t ih =>
      simp only [List.map_cons, List.sum_cons, ih]
      ring

theorem devSqR_map_affine (x : List ℝ) (hx : x ≠ []) (a m : ℝ) :
    devSqR (x.map fun v => (v - m) * a) = a ^ 2 * devSqR x := by
  unfold devSqR
  rw [meanR_map_affine x hx a m, List.map_map]
  have hfun : ((fun v => (v - (meanR x - m) * a) ^ 2) ∘ fun v => (v - m) * a) =
      fun v => a ^ 2 * (v - meanR x) ^ 2 := by
    funext v
    simp only [Function.comp]
    ring
  rw [hfun]
  exact sum_map_mul_left x (a ^ 2) fun v => (v - meanR x) ^ 2

theorem sum_zipWith_mul_left (x y : List ℝ) (c : ℝ) (g : ℝ → ℝ → ℝ) :
    (List.zipWith (fun u b => c * g u b) x y).sum = c * (List.zipWith g x y).sum := by
  induction x generalizing y with
  | nil => simp
  | cons u t ih =>
      cases y with
      | nil => simp
      | cons b s =>
          simp only [List.zipWith_cons_cons, List.sum_cons, ih]
          ring

theorem covSumR_map_affine_left (x y : List ℝ) (hx : x ≠ []) (a m : ℝ) :
    covSumR (x.map fun v => (v - m) * a) y = a * covSumR x y := by
  unfold covSumR
  rw [meanR_map_affine x hx a m, List.zipWith_map_left]
  have hfun : (fun (u b : ℝ) => ((u - m) * a - (meanR x - m) * a) * (b - meanR y)) =
      fun u b => a * ((u - meanR x) * (b - meanR y)) := by
    funext u b
    ring
  rw [hfun]
  exact sum_zipWith_mul_left x y a fun u b => (u - meanR x) * (b - meanR y)

theorem covSumR_map_affine_right (x y : List ℝ) (hy : y ≠ []) (a m : ℝ) :
    covSumR x (y.map fun v => (v - m) * a) = a * covSumR x y := by
  unfold covSumR
  rw [meanR_map_affine y hy a m, List.zipWith_map_right]
  have hfun : (fun (u b : ℝ) => (u - meanR x) * ((b - m) * a - (meanR y - m) * a)) =
      fun u b => a * ((u - meanR x) * (b - meanR y)) := by
    funext u b
    ring
  rw [hfun]
  exact sum_zipWith_mul_left x y a fun u b => (u - meanR x) * (b - meanR y)

theorem pearsonR_map_affine_left (x y : List ℝ) (hx : x ≠ []) (a m : ℝ) (ha : 0 < a) :
    pearsonR (x.map fun v => (v - m) * a) y = pearsonR x y := by
  unfold pearsonR
  rw [covSumR_map_affine_left x y hx a m, devSqR_map_affine x hx a m,
    show a ^ 2 * devSqR x * devSqR y = a ^ 2 * (devSqR x * devSqR y) from by ring,
    Real.sqrt_mul (sq_nonneg a), Real.sqrt_sq ha.le,
    mul_div_mul_left _ _ (ne_of_gt ha)]

theorem pearsonR_map_affine_right (x y : List ℝ) (hy : y ≠ []) (a m : ℝ) (ha : 0 < a) :
    pearsonR x (y.map fun v => (v - m) * a) = pearsonR x y := by
  unfold pearsonR
  rw [covSumR_map_affine_right x y hy a m, devSqR_map_affine y hy a m,
    show devSqR x * (a ^ 2 * devSqR y) = a ^ 2 * (devSqR x * devSqR y) from by ring,
    Real.sqrt_mul (sq_nonneg a), Real.sqrt_sq ha.le,
    mul_div_mul_left _ _ (ne_of_gt ha)]

theorem meanR_replicate_zero (n : ℕ) : meanR (List.replicate n (0 : ℝ)) = 0 := by
  simp [meanR]

theorem devSqR_replicate_zero (n : ℕ) : devSqR (List.replicate n (0 : ℝ)) = 0 := by
  simp [devSqR, meanR_replicate_zero]

theorem pearsonR_replicate_zero_left (n : ℕ) (y : List ℝ) :
    pearsonR (List.replicate n 0) y = 0 := by
  unfold pearsonR
  rw [devSqR_replicate_zero, zero_mul, Real.sqrt_zero, div_zero]

theorem pearsonR_replicate_zero_right (n : ℕ) (x : List ℝ) :
    pearsonR x (List.replicate n 0) = 0 := by
  unfold pearsonR
  rw [devSqR_replicate_zero, mul_zero, Real.sqrt_zero, div_zero]

theorem devSq_nil : devSq [] = 0 := by
  simp [devSq]

theorem devSq_singleton (a : ℚ) : devSq [a] = 0 := by
  simp [devSq, mean]

theorem sampleVar_eq_zero_iff (x : List ℚ) : sampleVar x = 0 ↔ devSq x = 0 := by
  unfold sampleVar
  constructor
  · intro h
    match x with
    | [] => exact devSq_nil
    | [a] => exact devSq_singleton a
    | a :: b :: t =>
        rcases div_eq_zero_iff.mp h with h' | h'
        · exact h'
        · exfalso
          have : ((a :: b :: t).length : ℚ) = (t.length : ℚ) + 2 := by
            simp
            push_cast
            ring
          rw [this] at h'
          have ht : (0 : ℚ) ≤ (t.length : ℚ) := by positivity
          linarith
  · intro h
    rw [h, zero_div]

theorem sampleVar_nonneg (x : List ℚ) : 0 ≤ sampleVar x := by
  match x with
  | [] =>
      simp [sampleVar, devSq_nil]
  | a :: t =>
      apply div_nonneg (devSq_nonneg _)
      have : (1 : ℚ) ≤ ((a :: t).length : ℚ) := by
        have : 1 ≤ (a :: t).length := by simp
        exact_mod_cast this
      linarith

theorem sampleVar_pos_of_ne (x : List ℚ) (h : sampleVar x ≠ 0) : 0 < sampleVar x :=
  lt_of_le_of_ne (sampleVar_nonneg x) (Ne.symm h)

theorem ne_nil_of_sampleVar (x : List ℚ) (h : sampleVar x ≠ 0) : x ≠ [] := by
  rintro rfl
  exact h (by simp [sampleVar, devSq_nil])

theorem zscoreNanCol_degenerate (x : List ℚ) (h : sampleVar x = 0) :
    zscoreNanCol x = List.replicate x.length 0 := by
  simp [zscoreNanCol, h]

theorem zscoreNanCol_eq_affine (x : List ℚ) (h : sampleVar x ≠ 0) :
    zscoreNanCol x =
      (castL x).map fun v =>
        (v - ((mean x : ℚ) : ℝ)) * (Real.sqrt (((sampleVar x : ℚ)) : ℝ))⁻¹ := by
  unfold zscoreNanCol castL
  rw [if_neg h, List.map_map]
  congr 1

/-- composing the zscore and nan_to_num normalisation of the source with the
spec-modelled Pearson primitive yields exactly the value denoted by the
executable correlation entry: the normalisation is a positive affine map of
each nondegenerate column and Pearson correlation is invariant under those,
while degenerate columns are zeroed on both sides -/
theorem corr_entry_faithful (x y : List ℚ) :
    pearsonR (zscoreNanCol x) (zscoreNanCol y) = (pearsonEntry x y).toR := by
  by_cases hx : sampleVar x = 0
  · rw [zscoreNanCol_degenerate x hx, pearsonR_replicate_zero_left]
    have hdx : devSq x = 0 := (sampleVar_eq_zero_iff x).mp hx
    simp [pearsonEntry, CorrEntry.toR, sval, hdx]
  · by_cases hy : sampleVar y = 0
    · rw [zscoreNanCol_degenerate y hy, pearsonR_replicate_zero_right]
      have hdy : devSq y = 0 := (sampleVar_eq_zero_iff y).mp hy
      simp [pearsonEntry, CorrEntry.toR, sval, hdy]
    · have hxp : (0 : ℝ) < Real.sqrt (((sampleVar x : ℚ)) : ℝ) :=
        Real.sqrt_pos.mpr (by exact_mod_cast sampleVar_pos_of_ne x hx)
      have hyp : (0 : ℝ) < Real.sqrt (((sampleVar y : ℚ)) : ℝ) :=
        Real.sqrt_pos.mpr (by exact_mod_cast sampleVar_pos_of_ne y hy)
      rw [zscoreNanCol_eq_affine x hx, zscoreNanCol_eq_affine y hy,
        pearsonR_map_affine_left _ _ (castL_ne_nil x (ne_nil_of_sampleVar x hx)) _ _
          (inv_pos.mpr hxp),
        pearsonR_map_affine_right _ _ (castL_ne_nil y (ne_nil_of_sampleVar y hy)) _ _
          (inv_pos.mpr hyp)]
      exact pearsonR_castL x y

/-- the executable correlation matrix denotes entrywise exactly the matrix the
source computes by zscore, nan_to_num and compute_correlation -/
theorem corrMtx_faithful (A B : Mat) (nseg p q : ℕ) (hp : p < nseg) (hq : q < nseg) :
    ((corrMtxR A B nseg).getD p []).getD q 0 =
      (((corrMtx A B nseg).getD p []).getD q .ninf).toR := by
  unfold corrMtxR corrMtx
  rw [rangeMap_getD _ _ _ _ hp, rangeMap_getD _ _ _ _ hp,
    rangeMap_getD _ _ _ _ hq, rangeMap_getD _ _ _ _ hq]
  exact corr_entry_faithful _ _

theorem zipWith_getD {α β γ : Type} (f : α → β → γ) (l1 : List α) (l2 : List β) (i : ℕ)
    (d1 : α) (d2 : β) (d3 : γ) (h1 : i < l1.length) (h2 : i < l2.length) :
    (List.zipWith f l1 l2).getD i d3 = f (l1.getD i d1) (l2.getD i d2) := by
  rw [List.getD_eq_getElem _ _ (by rw [List.length_zipWith]; omega),
    List.getD_eq_getElem _ _ h1, List.getD_eq_getElem _ _ h2]
  exact List.getElem_zipWith

theorem Mat.IsRect.row_len {A : Mat} {m n : ℕ} (h : A.IsRect m n) (i : ℕ) (hi : i < m) :
    (A.getD i []).length = n := by
  have hiA : i < A.length := by rw [h.1]; exact hi
  rw [List.getD_eq_getElem _ _ hiA]
  exact h.2 _ (List.getElem_mem hiA)

theorem Mat.add_entry {A B : Mat} {m n : ℕ} (hA : A.IsRect m n) (hB : B.IsRect m n)
    (i j : ℕ) (hi : i < m) (hj : j < n) :
    (A.add B).entry i j = A.entry i j + B.entry i j := by
  have hiA : i < A.length := by rw [hA.1]; exact hi
  have hiB : i < B.length := by rw [hB.1]; exact hi
  unfold Mat.add Mat.entry
  rw [zipWith_getD _ A B i [] [] [] hiA hiB]
  exact zipWith_getD _ _ _ j 0 0 0 (by rw [hA.row_len i hi]; exact hj)
    (by rw [hB.row_len i hi]; exact hj)

theorem Mat.sub_entry {A B : Mat} {m n : ℕ} (hA : A.IsRect m n) (hB : B.IsRect m n)
    (i j : ℕ) (hi : i < m) (hj : j < n) :
    (A.sub B).entry i j = A.entry i j - B.entry i j := by
  have hiA : i < A.length := by rw [hA.1]; exact hi
  have hiB : i < B.length := by rw [hB.1]; exact hi
  unfold Mat.sub Mat.entry
  rw [zipWith_getD _ A B i [] [] [] hiA hiB]
  exact zipWith_getD _ _ _ j 0 0 0 (by rw [hA.row_len i hi]; exact hj)
    (by rw [hB.row_len i hi]; exact hj)

theorem Mat.add_isRect {A B : Mat} {m n : ℕ} (hA : A.IsRect m n) (hB : B.IsRect m n) :
    (A.add B).IsRect m n := by
  constructor
  · unfold Mat.add
    rw [List.length_zipWith, hA.1, hB.1, min_self]
  · intro r hr
    unfold Mat.add at hr
    obtain ⟨i, hi, rfl⟩ := List.mem_iff_getElem.mp hr
    rw [List.getElem_zipWith, List.length_zipWith]
    have hiA : i < A.length := by
      rw [List.length_zipWith] at hi; omega
    have hiB : i < B.length := by
      rw [List.length_zipWith] at hi; omega
    rw [hA.2 _ (List.getElem_mem hiA), hB.2 _ (List.getElem_mem hiB), min_self]

theorem matZero_isRect (m n : ℕ) : (matZero m n).IsRect m n := by
  constructor
  · simp [matZero]
  · intro r hr
    rw [List.eq_of_mem_replicate hr]
    simp

theorem replicate_getD_zero (n c : ℕ) : (List.replicate n (0 : ℚ)).getD c 0 = 0 := by
  rcases Nat.lt_or_ge c n with h | h
  · rw [List.getD_eq_getElem _ _ (by simpa using h)]
    simp
  · rw [List.getD_eq_default _ _ (by simpa using h)]

theorem matZero_entry (m n r c : ℕ) : (matZero m n).entry r c = 0 := by
  unfold matZero Mat.entry
  rcases Nat.lt_or_ge r m with h | h
  · have hrow : (List.replicate m (List.replicate n (0 : ℚ))).getD r [] =
        List.replicate n (0 : ℚ) := by
      rw [List.getD_eq_getElem _ _ (by simpa using h)]
      exact List.getElem_replicate _ _
    rw [hrow, replicate_getD_zero]
  · have hrow : (List.replicate m (List.replicate n (0 : ℚ))).getD r [] = [] :=
      List.getD_eq_default _ _ (by simpa using h)
    rw [hrow]
    rfl

theorem segmentMatrix_isRect (ndim ws nseg : ℕ) (X : Mat) :
    (segmentMatrix ndim ws nseg X).IsRect (ndim * ws) nseg := by
  constructor
  · simp [segmentMatrix]
  · intro r hr
    obtain ⟨k, _, rfl⟩ := List.mem_map.mp hr
    simp

/-- entry characterisation of the segment matrix in terms of the raw index -/
theorem segmentMatrix_entry (ndim ws nseg : ℕ) (X : Mat) (r j : ℕ)
    (hr : r < ndim * ws) (hj : j < nseg) :
    (segmentMatrix ndim ws nseg X).entry r j = X.entry (r % ndim) (r / ndim + j) := by
  unfold segmentMatrix Mat.entry
  rw [rangeMap_getD _ _ _ _ hr, rangeMap_getD _ _ _ _ hj]

/-- entry characterisation of the segment matrix in block coordinates: window
offset w, feature d, segment j -/
theorem segmentMatrix_block (ndim ws nseg : ℕ) (X : Mat) (w d j : ℕ)
    (hw : w < ws) (hd : d < ndim) (hj : j < nseg) :
    (segmentMatrix ndim ws nseg X).entry (w * ndim + d) j = X.entry d (w + j) := by
  have hr : w * ndim + d < ndim * ws := by
    calc w * ndim + d < w * ndim + ndim := by omega
      _ = (w + 1) * ndim := by ring
      _ ≤ ws * ndim := Nat.mul_le_mul_right ndim (by omega)
      _ = ndim * ws := Nat.mul_comm ws ndim
  rw [segmentMatrix_entry ndim ws nseg X _ j hr hj]
  have hmod : (w * ndim + d) % ndim = d := by
    rw [Nat.mul_comm w ndim, Nat.mul_add_mod, Nat.mod_eq_of_lt hd]
  have hdiv : (w * ndim + d) / ndim = w := by
    rw [Nat.mul_comm w ndim, Nat.mul_add_div (by omega), Nat.div_eq_of_lt hd]
    omega
  rw [hmod, hdiv]

theorem foldl_add_isRect (ndim ws nseg : ℕ) (data : List Mat) :
    ∀ A : Mat, A.IsRect (ndim * ws) nseg →
      (data.foldl (fun acc X => acc.add (segmentMatrix ndim ws nseg X)) A).IsRect
        (ndim * ws) nseg := by
  induction data with
  | nil => intro A hA; exact hA
  | cons X rest ih =>
      intro A hA
      rw [List.foldl_cons]
      exact ih _ (Mat.add_isRect hA (segmentMatrix_isRect ndim ws nseg X))

theorem foldl_add_entry (ndim ws nseg : ℕ) (data : List Mat) :
    ∀ A : Mat, A.IsRect (ndim * ws) nseg → ∀ r c : ℕ, r < ndim * ws → c < nseg →
      (data.foldl (fun acc X => acc.add (segmentMatrix ndim ws nseg X)) A).entry r c =
        A.entry r c + ∑ k ∈ Finset.range data.length,
          (segmentMatrix ndim ws nseg (data.getD k [])).entry r c := by
  induction data with
  | nil => intro A _ r c _ _; simp
  | cons X rest ih =>
      intro A hA r c hr hc
      rw [List.foldl_cons,
        ih (A.add (segmentMatrix ndim ws nseg X))
          (Mat.add_isRect hA (segmentMatrix_isRect ndim ws nseg X)) r c hr hc,
        Mat.add_entry hA (segmentMatrix_isRect ndim ws nseg X) r c hr hc,
        List.length_cons, Finset.sum_range_succ']
      simp only [List.getD_cons_succ, List.getD_cons_zero]
      ring

/-- the group sum is the elementwise sum of all subjects' segment matrices -/
theorem groupSum_entry (ndim ws nseg : ℕ) (data : List Mat) (r c : ℕ)
    (hr : r < ndim * ws) (hc : c < nseg) :
    (groupSum ndim ws nseg data).entry r c =
      ∑ k ∈ Finset.range data.length,
        (segmentMatrix ndim ws nseg (data.getD k [])).entry r c := by
  unfold groupSum
  rw [foldl_add_entry ndim ws nseg data _ (matZero_isRect _ _) r c hr hc,
    matZero_entry, zero_add]

theorem groupSum_isRect (ndim ws nseg : ℕ) (data : List Mat) :
    (groupSum ndim ws nseg data).IsRect (ndim * ws) nseg :=
  foldl_add_isRect ndim ws nseg data _ (matZero_isRect _ _)

/-- the corrected template entry is group sum minus the held-out segment entry -/
theorem correctedTemplate_entry (ndim ws nseg : ℕ) (data : List Mat) (i r c : ℕ)
    (hr : r < ndim * ws) (hc : c < nseg) :
    (correctedTemplate ndim ws nseg data i).entry r c =
      (groupSum ndim ws nseg data).entry r c - (tstData ndim ws nseg data i).entry r c := by
  unfold correctedTemplate tstData
  exact Mat.sub_entry (groupSum_isRect ndim ws nseg data)
    (segmentMatrix_isRect ndim ws nseg _) r c hr hc

/-- entry of the masked correlation matrix: the mask marker on excluded pairs,
the Pearson entry of the held-out and corrected-template columns elsewhere -/
theorem subjectMasked_entry (ndim ws nseg : ℕ) (data : List Mat) (i p q : ℕ)
    (hp : p < nseg) (hq : q < nseg) :
    ((subjectMasked ndim ws nseg data i).getD p []).getD q .ninf =
      if maskCond ws p q then .ninf
      else pearsonEntry ((tstData ndim ws nseg data i).col p)
        ((correctedTemplate ndim ws nseg data i).col q) := by
  unfold subjectMasked applyMask
  rw [rangeMap_getD _ _ _ _ hp, rangeMap_getD _ _ _ _ hq]
  by_cases h : maskCond ws p q
  · rw [if_pos h, if_pos h]
  · rw [if_neg h, if_neg h]
    unfold corrMtx
    rw [rangeMap_getD _ _ _ _ hp, rangeMap_getD _ _ _ _ hq]

theorem subjectMasked_length (ndim ws nseg : ℕ) (data : List Mat) (i : ℕ) :
    (subjectMasked ndim ws nseg data i).length = nseg := by
  simp [subjectMasked, applyMask]

theorem subjectMasked_row_length (ndim ws nseg : ℕ) (data : List Mat) (i p : ℕ)
    (hp : p < nseg) :
    ((subjectMasked ndim ws nseg data i).getD p []).length = nseg := by
  unfold subjectMasked applyMask
  rw [rangeMap_getD _ _ _ _ hp]
  simp

theorem maxIdx_length (ndim ws nseg : ℕ) (data : List Mat) (i : ℕ) :
    (maxIdx ndim ws nseg data i).length = nseg := by
  simp [maxIdx, subjectMasked, applyMask]

theorem maxIdx_getD (ndim ws nseg : ℕ) (data : List Mat) (i p : ℕ) (hp : p < nseg) :
    (maxIdx ndim ws nseg data i).getD p 0 =
      npArgmax ((subjectMasked ndim ws nseg data i).getD p []) := by
  unfold maxIdx
  rw [getD_map_of_lt _ _ _ _ [] (by rw [subjectMasked_length]; exact hp)]

theorem countP_zip_map (r : List ℕ) (g : ℕ → ℕ) :
    (((r.map g).zip r).countP fun pr => pr.1 == pr.2) = r.countP fun i => g i == i := by
  induction r with
  | nil => rfl
  | cons a t ih =>
      simp only [List.map_cons, List.zip_cons_cons, List.countP_cons, ih]

theorem countP_range_eq_card (n : ℕ) (p : ℕ → Prop) [DecidablePred p] :
    ((List.range n).countP fun i => decide (p i)) = ((Finset.range n).filter p).card := by
  induction n with
  | zero => simp
  | succ n ih =>
      rw [List.range_succ, List.countP_append, Finset.range_succ, Finset.filter_insert]
      by_cases h : p n
      · rw [if_pos h, Finset.card_insert_of_not_mem (by simp)]
        simp [List.countP_cons, h, ih]
      · rw [if_neg h]
        simp [List.countP_cons, h, ih]

/-- the procedure succeeds exactly on a nonempty subject list whose first
matrix has more columns than the window, and then returns one accuracy per
subject; note that no property of the other subjects is consulted -/
theorem tsm_eq_ok (X0 : Mat) (rest : List Mat) (ws : ℕ) (h : ws < X0.cols) :
    time_segment_matching (X0 :: rest) ws =
      .ok ((List.range (X0 :: rest).length).map fun i =>
        subjectAccuracy X0.rows ws (X0.cols - ws) (X0 :: rest) i) := by
  simp only [time_segment_matching]
  rw [if_neg (by omega), if_neg (by omega)]

theorem subjectAccuracy_nonneg (ndim ws nseg : ℕ) (data : List Mat) (i : ℕ) :
    0 ≤ subjectAccuracy ndim ws nseg data i := by
  unfold subjectAccuracy
  positivity

theorem subjectAccuracy_le_one (ndim ws nseg : ℕ) (data : List Mat) (i : ℕ)
    (hseg : 0 < nseg) :
    subjectAccuracy ndim ws nseg data i ≤ 1 := by
  unfold subjectAccuracy
  rw [div_le_one (by exact_mod_cast hseg)]
  have hcount : (((maxIdx ndim ws nseg data i).zip (List.range nseg)).countP
      fun pr => pr.1 == pr.2) ≤ nseg := by
    calc (((maxIdx ndim ws nseg data i).zip (List.range nseg)).countP
        fun pr => pr.1 == pr.2) ≤
        ((maxIdx ndim ws nseg data i).zip (List.range nseg)).length :=
          List.countP_le_length _
      _ = min (maxIdx ndim ws nseg data i).length (List.range nseg).length :=
          List.length_zip _ _
      _ ≤ (List.range nseg).length := min_le_right _ _
      _ = nseg := List.length_range nseg
  exact_mod_cast hcount

theorem maxIdx_eq (ndim ws nseg : ℕ) (data : List Mat) (i : ℕ) :
    maxIdx ndim ws nseg data i = (List.range nseg).map fun p =>
      npArgmax ((subjectMasked ndim ws nseg data i).getD p []) := by
  have hlen1 : (maxIdx ndim ws nseg data i).length = nseg := maxIdx_length ndim ws nseg data i
  apply List.ext_getElem (by rw [hlen1]; simp)
  intro p h1 h2
  have hp : p < nseg := by rwa [hlen1] at h1
  unfold maxIdx
  rw [List.getElem_map, List.getElem_map, List.getElem_range]
  congr 1
  rw [List.getD_eq_getElem _ _ (by rw [subjectMasked_length]; exact hp)]

theorem beq_nat_decide (f : ℕ → ℕ) :
    (fun p : ℕ => (f p == p)) = fun p : ℕ => decide (f p = p) := by
  funext p
  by_cases h : f p = p
  · simp [h]
  · simp [h]

theorem subjectAccuracy_eq_card (ndim ws nseg : ℕ) (data : List Mat) (i : ℕ) :
    subjectAccuracy ndim ws nseg data i =
      (((Finset.range nseg).filter fun p =>
        (maxIdx ndim ws nseg data i).getD p 0 = p).card : ℚ) / (nseg : ℚ) := by
  unfold subjectAccuracy
  congr 2
  rw [maxIdx_eq, countP_zip_map, beq_nat_decide, countP_range_eq_card]
  congr 1
  apply Finset.filter_congr
  intro p hp
  rw [rangeMap_getD _ _ _ _ (Finset.mem_range.mp hp)]

theorem npArgmax_degenerate_row (ndim ws nseg : ℕ) (data : List Mat) (i p : ℕ)
    (hp : p < nseg) (hdeg : nseg ≤ ws) :
    npArgmax ((subjectMasked ndim ws nseg data i).getD p []) = p := by
  have hlen : ((subjectMasked ndim ws nseg data i).getD p []).length = nseg :=
    subjectMasked_row_length ndim ws nseg data i p hp
  have hne : (subjectMasked ndim ws nseg data i).getD p [] ≠ [] := by
    intro hnil
    rw [hnil] at hlen
    simp at hlen
    omega
  obtain ⟨hk, hmax, -⟩ := npArgmax_spec _ hne
  rw [hlen] at hk
  by_contra hkp
  have hmask : maskCond ws p (npArgmax ((subjectMasked ndim ws nseg data i).getD p [])) := by
    constructor
    · omega
    · exact fun hpk => hkp hpk.symm
  have hninf : ((subjectMasked ndim ws nseg data i).getD p []).getD
      (npArgmax ((subjectMasked ndim ws nseg data i).getD p [])) .ninf = .ninf := by
    rw [subjectMasked_entry ndim ws nseg data i p _ hp hk, if_pos hmask]
  have hdiag : ((subjectMasked ndim ws nseg data i).getD p []).getD p .ninf =
      pearsonEntry ((tstData ndim ws nseg data i).col p)
        ((correctedTemplate ndim ws nseg data i).col p) := by
    rw [subjectMasked_entry ndim ws nseg data i p p hp hp, if_neg (fun hc => hc.2 rfl)]
  have hle := hmax p (by rw [hlen]; exact hp)
  rw [hninf, hdiag] at hle
  exact hle

theorem subjectAccuracy_degenerate (ndim ws nseg : ℕ) (data : List Mat) (i : ℕ)
    (hseg : 0 < nseg) (hdeg : nseg ≤ ws) :
    subjectAccuracy ndim ws nseg data i = 1 := by
  rw [subjectAccuracy_eq_card]
  have hfilter : ((Finset.range nseg).filter fun p =>
      (maxIdx ndim ws nseg data i).getD p 0 = p) = Finset.range nseg := by
    apply Finset.filter_true_of_mem
    intro p hp
    rw [maxIdx_getD ndim ws nseg data i p (Finset.mem_range.mp hp)]
    exact npArgmax_degenerate_row ndim ws nseg data i p (Finset.mem_range.mp hp) hdeg
  rw [hfilter, Finset.card_range]
  exact div_self (by exact_mod_cast hseg.ne')

theorem list_sum_le (l : List ℚ) (ub : ℚ) (h : ∀ a ∈ l, a ≤ ub) :
    l.sum ≤ (l.length : ℚ) * ub := by
  induction l with
  | nil => simp
  | cons a t ih =>
      simp only [List.sum_cons, List.length_cons]
      have h1 := h a (by simp)
      have h2 := ih fun b hb => h b (by simp [hb])
      have h3 : ((t.length + 1 : ℕ) : ℚ) * ub = (t.length : ℚ) * ub + ub := by
        push_cast
        ring
      rw [h3]
      linarith

theorem list_le_sum (l : List ℚ) (lb : ℚ) (h : ∀ a ∈ l, lb ≤ a) :
    (l.length : ℚ) * lb ≤ l.sum := by
  induction l with
  | nil => simp
  | cons a t ih =>
      simp only [List.sum_cons, List.length_cons]
      have h1 := h a (by simp)
      have h2 := ih fun b hb => h b (by simp [hb])
      have h3 : ((t.length + 1 : ℕ) : ℚ) * lb = (t.length : ℚ) * lb + lb := by
        push_cast
        ring
      rw [h3]
      linarith

theorem mean_replicate (n : ℕ) (a : ℚ) (hn : n ≠ 0) : mean (List.replicate n a) = a := by
  unfold mean
  rw [List.sum_replicate, List.length_replicate, nsmul_eq_mul]
  field_simp

theorem devSq_replicate (n : ℕ) (a : ℚ) : devSq (List.replicate n a) = 0 := by
  cases n with
  | zero => exact devSq_nil
  | succ m =>
      unfold devSq
      rw [mean_replicate _ _ (Nat.succ_ne_zero m), List.map_replicate]
      simp

theorem meanR_replicate (n : ℕ) (a : ℝ) (hn : n ≠ 0) : meanR (List.replicate n a) = a := by
  unfold meanR
  rw [List.sum_replicate, List.length_replicate, nsmul_eq_mul]
  field_simp

theorem devSqR_replicate (n : ℕ) (a : ℝ) : devSqR (List.replicate n a) = 0 := by
  cases n with
  | zero => simp [devSqR]
  | succ m =>
      unfold devSqR
      rw [meanR_replicate _ _ (Nat.succ_ne_zero m), List.map_replicate]
      simp

/-- Claim C1: the group sum is the elementwise sum of all N subjects' segment
matrices, including the eventual held-out subject, and for each held-out
subject i the corrected template used for classification equals GroupSum minus
SegmentMatrix i, hence the sum of the other N - 1 subjects' segment matrices. -/
theorem c1_leave_one_out (ndim ws nseg : ℕ) (data : List Mat) (i r c : ℕ)
    (hi : i < data.length) (hr : r < ndim * ws) (hc : c < nseg) :
    (groupSum ndim ws nseg data).entry r c =
      ∑ k ∈ Finset.range data.length,
        (segmentMatrix ndim ws nseg (data.getD k [])).entry r c ∧
    correctedTemplate ndim ws nseg data i =
      (groupSum ndim ws nseg data).sub (segmentMatrix ndim ws nseg (data.getD i [])) ∧
    (correctedTemplate ndim ws nseg data i).entry r c =
      ∑ k ∈ (Finset.range data.length).erase i,
        (segmentMatrix ndim ws nseg (data.getD k [])).entry r c := by
  refine ⟨groupSum_entry ndim ws nseg data r c hr hc, rfl, ?_⟩
  rw [correctedTemplate_entry ndim ws nseg data i r c hr hc,
    groupSum_entry ndim ws nseg data r c hr hc]
  have hsum := Finset.sum_erase_add (Finset.range data.length)
    (fun k => (segmentMatrix ndim ws nseg (data.getD k [])).entry r c)
    (Finset.mem_range.mpr hi)
  unfold tstData
  linarith [hsum]

/-- Witness for C1 at a concrete two-subject input. -/
theorem c1_leave_one_out_witness :
    0 < ([[[(0 : ℚ), 1]], [[(3 : ℚ), 4]]] : List Mat).length ∧
    ((groupSum 1 1 1 [[[(0 : ℚ), 1]], [[(3 : ℚ), 4]]]).entry 0 0 =
      ∑ k ∈ Finset.range ([[[(0 : ℚ), 1]], [[(3 : ℚ), 4]]] : List Mat).length,
        (segmentMatrix 1 1 1 (([[[(0 : ℚ), 1]], [[(3 : ℚ), 4]]] : List Mat).getD k [])).entry
          0 0 ∧
    correctedTemplate 1 1 1 [[[(0 : ℚ), 1]], [[(3 : ℚ), 4]]] 0 =
      (groupSum 1 1 1 [[[(0 : ℚ), 1]], [[(3 : ℚ), 4]]]).sub
        (segmentMatrix 1 1 1 (([[[(0 : ℚ), 1]], [[(3 : ℚ), 4]]] : List Mat).getD 0 [])) ∧
    (correctedTemplate 1 1 1 [[[(0 : ℚ), 1]], [[(3 : ℚ), 4]]] 0).entry 0 0 =
      ∑ k ∈ (Finset.range ([[[(0 : ℚ), 1]], [[(3 : ℚ), 4]]] : List Mat).length).erase 0,
        (segmentMatrix 1 1 1 (([[[(0 : ℚ), 1]], [[(3 : ℚ), 4]]] : List Mat).getD k [])).entry
          0 0) :=
  ⟨by decide,
    c1_leave_one_out 1 1 1 [[[(0 : ℚ), 1]], [[(3 : ℚ), 4]]] 0 0 0 (by decide) (by decide)
      (by decide)⟩

/-- Claim C2: the masked correlation entry at (p, q) is negative infinity iff
abs (p - q) < win_size and p ≠ q; the diagonal entry is never masked and stays
the original correlation value, an eligible candidate. -/
theorem c2_exclusion_mask (ndim ws nseg : ℕ) (data : List Mat) (i p q : ℕ)
    (hp : p < nseg) (hq : q < nseg) :
    (((subjectMasked ndim ws nseg data i).getD p []).getD q .ninf = .ninf ↔
      (((p : ℤ) - (q : ℤ)).natAbs < ws ∧ p ≠ q)) ∧
    ((subjectMasked ndim ws nseg data i).getD p []).getD p .ninf =
      pearsonEntry ((tstData ndim ws nseg data i).col p)
        ((correctedTemplate ndim ws nseg data i).col p) ∧
    ((subjectMasked ndim ws nseg data i).getD p []).getD p .ninf ≠ .ninf := by
  refine ⟨?_, ?_, ?_⟩
  · rw [subjectMasked_entry ndim ws nseg data i p q hp hq]
    by_cases h : maskCond ws p q
    · rw [if_pos h]
      exact iff_of_true rfl h
    · rw [if_neg h]
      exact iff_of_false (by simp [pearsonEntry]) h
  · rw [subjectMasked_entry ndim ws nseg data i p p hp hp, if_neg fun hc => hc.2 rfl]
  · rw [subjectMasked_entry ndim ws nseg data i p p hp hp, if_neg fun hc => hc.2 rfl]
    simp [pearsonEntry]

/-- Witness for C2 at a concrete input. -/
theorem c2_exclusion_mask_witness :
    (0 : ℕ) < 2 ∧
    ((((subjectMasked 1 1 2 [[[(1 : ℚ), 2, 3]]] 0).getD 0 []).getD 1 .ninf = .ninf ↔
      ((((0 : ℕ) : ℤ) - ((1 : ℕ) : ℤ)).natAbs < 1 ∧ (0 : ℕ) ≠ 1)) ∧
    ((subjectMasked 1 1 2 [[[(1 : ℚ), 2, 3]]] 0).getD 0 []).getD 0 .ninf =
      pearsonEntry ((tstData 1 1 2 [[[(1 : ℚ), 2, 3]]] 0).col 0)
        ((correctedTemplate 1 1 2 [[[(1 : ℚ), 2, 3]]] 0).col 0) ∧
    ((subjectMasked 1 1 2 [[[(1 : ℚ), 2, 3]]] 0).getD 0 []).getD 0 .ninf ≠ .ninf) :=
  ⟨by decide, c2_exclusion_mask 1 1 2 [[[(1 : ℚ), 2, 3]]] 0 0 1 (by decide) (by decide)⟩

/-- Claim C3: for each held-out subject and each row p of the masked
correlation matrix, the predicted index is the argmax over columns, ties
broken by the lowest qualifying index (every strictly earlier column is
strictly smaller), and the subject's accuracy is the number of rows whose
prediction equals the row index, divided by nseg. -/
theorem c3_classifier (ndim ws nseg : ℕ) (data : List Mat) (i p : ℕ) (hp : p < nseg) :
    (maxIdx ndim ws nseg data i).getD p 0 < nseg ∧
    (∀ q, q < nseg →
      (((subjectMasked ndim ws nseg data i).getD p []).getD q .ninf).le
        (((subjectMasked ndim ws nseg data i).getD p []).getD
          ((maxIdx ndim ws nseg data i).getD p 0) .ninf)) ∧
    (∀ q, q < (maxIdx ndim ws nseg data i).getD p 0 →
      (((subjectMasked ndim ws nseg data i).getD p []).getD q .ninf).lt
        (((subjectMasked ndim ws nseg data i).getD p []).getD
          ((maxIdx ndim ws nseg data i).getD p 0) .ninf)) ∧
    subjectAccuracy ndim ws nseg data i =
      (((Finset.range nseg).filter fun r =>
        (maxIdx ndim ws nseg data i).getD r 0 = r).card : ℚ) / (nseg : ℚ) := by
  have hlen : ((subjectMasked ndim ws nseg data i).getD p []).length = nseg :=
    subjectMasked_row_length ndim ws nseg data i p hp
  have hne : (subjectMasked ndim ws nseg data i).getD p [] ≠ [] := by
    intro h0
    rw [h0] at hlen
    simp at hlen
    omega
  obtain ⟨h1, h2, h3⟩ := npArgmax_spec _ hne
  rw [maxIdx_getD ndim ws nseg data i p hp]
  exact ⟨by omega, fun q hq => h2 q (by omega), h3,
    subjectAccuracy_eq_card ndim ws nseg data i⟩

/-- Witness for C3 at a concrete input. -/
theorem c3_classifier_witness :
    (0 : ℕ) < 2 ∧
    ((maxIdx 1 1 2 [[[(1 : ℚ), 2, 3]]] 0).getD 0 0 < 2 ∧
    (∀ q, q < 2 →
      (((subjectMasked 1 1 2 [[[(1 : ℚ), 2, 3]]] 0).getD 0 []).getD q .ninf).le
        (((subjectMasked 1 1 2 [[[(1 : ℚ), 2, 3]]] 0).getD 0 []).getD
          ((maxIdx 1 1 2 [[[(1 : ℚ), 2, 3]]] 0).getD 0 0) .ninf)) ∧
    (∀ q, q < (maxIdx 1 1 2 [[[(1 : ℚ), 2, 3]]] 0).getD 0 0 →
      (((subjectMasked 1 1 2 [[[(1 : ℚ), 2, 3]]] 0).getD 0 []).getD q .ninf).lt
        (((subjectMasked 1 1 2 [[[(1 : ℚ), 2, 3]]] 0).getD 0 []).getD
          ((maxIdx 1 1 2 [[[(1 : ℚ), 2, 3]]] 0).getD 0 0) .ninf)) ∧
    subjectAccuracy 1 1 2 [[[(1 : ℚ), 2, 3]]] 0 =
      (((Finset.range 2).filter fun r =>
        (maxIdx 1 1 2 [[[(1 : ℚ), 2, 3]]] 0).getD r 0 = r).card : ℚ) / ((2 : ℕ) : ℚ)) :=
  ⟨by decide, c3_classifier 1 1 2 [[[(1 : ℚ), 2, 3]]] 0 0 (by decide)⟩

/-- Claim C4: for a time series of shape D x T and 0 < win_size < T the segment
matrix has shape (D * win_size) x (T - win_size), and for every window offset
w < win_size the D rows at offset block w equal the time-series columns
starting at w. -/
theorem c4_segment_builder (ndim T ws : ℕ) (X : Mat) (hX : X.IsRect ndim T)
    (hw : 0 < ws) (hwT : ws < T) :
    (segmentMatrix ndim ws (T - ws) X).IsRect (ndim * ws) (T - ws) ∧
    ∀ w, w < ws → ∀ d, d < ndim → ∀ j, j < T - ws →
      (segmentMatrix ndim ws (T - ws) X).entry (w * ndim + d) j = X.entry d (w + j) :=
  ⟨segmentMatrix_isRect _ _ _ _,
    fun w hw' d hd j hj => segmentMatrix_block ndim ws (T - ws) X w d j hw' hd hj⟩

/-- Witness for C4 at a concrete input. -/
theorem c4_segment_builder_witness :
    Mat.IsRect [[(1 : ℚ), 2, 3]] 1 3 ∧
    ((segmentMatrix 1 1 (3 - 1) [[(1 : ℚ), 2, 3]]).IsRect (1 * 1) (3 - 1) ∧
    ∀ w, w < 1 → ∀ d, d < 1 → ∀ j, j < 3 - 1 →
      (segmentMatrix 1 1 (3 - 1) [[(1 : ℚ), 2, 3]]).entry (w * 1 + d) j =
        Mat.entry [[(1 : ℚ), 2, 3]] d (w + j)) :=
  ⟨by decide, c4_segment_builder 1 3 1 [[(1 : ℚ), 2, 3]] (by decide) (by decide) (by decide)⟩

/-- Claim C5 (amended): the notebook performs no window validation and there is
no InvalidWindowError.  A window larger than the time dimension aborts with
numpy's negative-dimension ValueError; a window equal to the time dimension
reaches the accuracy division and aborts with ZeroDivisionError. -/
theorem c5_no_window_validation :
    (∀ (data : List Mat) (ws : ℕ),
      time_segment_matching data ws ≠ .error .invalidWindow) ∧
    (∀ (X0 : Mat) (rest : List Mat) (ws : ℕ), X0.cols < ws →
      time_segment_matching (X0 :: rest) ws = .error .pythonValueError) ∧
    (∀ (X0 : Mat) (rest : List Mat), (∀ M ∈ rest, M.rows = X0.rows) →
      time_segment_matching (X0 :: rest) X0.cols = .error .pythonZeroDivision) := by
  refine ⟨?_, ?_, ?_⟩
  · intro data ws
    match data with
    | [] => simp [time_segment_matching]
    | X0 :: rest =>
        simp only [time_segment_matching]
        split_ifs <;> simp
  · intro X0 rest ws h
    simp only [time_segment_matching]
    rw [if_pos h]
  · intro X0 rest _
    simp [time_segment_matching]

/-- Witness for C5 at concrete inputs. -/
theorem c5_no_window_validation_witness :
    Mat.cols [[(1 : ℚ), 2, 3]] < 4 ∧
    time_segment_matching [[[(1 : ℚ), 2, 3]]] 4 = .error .pythonValueError ∧
    time_segment_matching [[[(1 : ℚ), 2, 3]]] 3 = .error .pythonZeroDivision :=
  ⟨by decide, c5_no_window_validation.2.1 [[(1 : ℚ), 2, 3]] [] 4 (by decide),
    c5_no_window_validation.2.2 [[(1 : ℚ), 2, 3]] [] (by simp)⟩

/-- Counterexample for C5 as stated: at win_size equal to the time dimension
the run does fail, but with the Python-level ZeroDivisionError, not with
InvalidWindowError. -/
theorem c5_counterexample :
    Mat.cols [[(1 : ℚ), 2, 3]] ≤ 3 ∧
    time_segment_matching [[[(1 : ℚ), 2, 3]]] 3 ≠ .error .invalidWindow ∧
    time_segment_matching [[[(1 : ℚ), 2, 3]]] 3 = .error .pythonZeroDivision :=
  ⟨by decide, by decide, by decide⟩

/-- Claim C6: a constant-valued (zero-variance) segment column never raises:
its standardised form is the all-zero column, correlation against it is 0
rather than a non-finite value (both for the executable entries and for the
spec-modelled real primitive), and runs on data containing such columns
complete normally. -/
theorem c6_zero_variance :
    (∀ (n : ℕ) (a : ℚ), zscoreNanCol (List.replicate n a) = List.replicate n 0) ∧
    (∀ (n : ℕ) (a : ℚ) (x : List ℚ),
      (pearsonEntry x (List.replicate n a)).toR = 0 ∧
      (pearsonEntry (List.replicate n a) x).toR = 0) ∧
    (∀ (n : ℕ) (a : ℝ) (y : List ℝ),
      pearsonR y (List.replicate n a) = 0 ∧ pearsonR (List.replicate n a) y = 0) ∧
    (∀ (X0 : Mat) (rest : List Mat) (ws : ℕ), ws < X0.cols →
      ∃ accs, time_segment_matching (X0 :: rest) ws = .ok accs) := by
  refine ⟨?_, ?_, ?_, ?_⟩
  · intro n a
    rw [zscoreNanCol_degenerate _ ((sampleVar_eq_zero_iff _).mpr (devSq_replicate n a)),
      List.length_replicate]
  · intro n a x
    constructor
    · simp only [pearsonEntry, toR_val, sval]
      rw [if_neg (by rw [devSq_replicate, mul_zero]; exact lt_irrefl 0)]
    · simp only [pearsonEntry, toR_val, sval]
      rw [if_neg (by rw [devSq_replicate, zero_mul]; exact lt_irrefl 0)]
  · intro n a y
    constructor
    · unfold pearsonR
      rw [devSqR_replicate, mul_zero, Real.sqrt_zero, div_zero]
    · unfold pearsonR
      rw [devSqR_replicate, zero_mul, Real.sqrt_zero, div_zero]
  · intro X0 rest ws h
    exact ⟨_, tsm_eq_ok X0 rest ws h⟩

/-- Witness for C6: a concrete constant column and a run whose first subject
is a constant time series. -/
theorem c6_zero_variance_witness :
    zscoreNanCol (List.replicate 3 (5 : ℚ)) = List.replicate 3 0 ∧
    (pearsonEntry [(1 : ℚ), 2, 3] (List.replicate 3 5)).toR = 0 ∧
    (∃ accs, time_segment_matching [[[(2 : ℚ), 2, 2]], [[(1 : ℚ), 2, 3]]] 1 = .ok accs) :=
  ⟨c6_zero_variance.1 3 5, (c6_zero_variance.2.1 3 5 [1, 2, 3]).1,
    c6_zero_variance.2.2.2 [[(2 : ℚ), 2, 2]] [[[(1 : ℚ), 2, 3]]] 1 (by decide)⟩

/-- Claim C7 (amended): the notebook performs no shape validation and there is
no ShapeMismatchError: the dimensions are read from subject 0 alone, subjects
with the same row count and at least as many columns are silently accepted
with their extra columns ignored, and the run returns a full accuracy vector. -/
theorem c7_no_shape_validation :
    (∀ (data : List Mat) (ws : ℕ),
      time_segment_matching data ws ≠ .error .shapeMismatch) ∧
    (∀ (X0 : Mat) (rest : List Mat) (ws : ℕ),
      (∀ M ∈ X0 :: rest, M.rows = X0.rows ∧ ∀ row ∈ M, X0.cols ≤ row.length) →
      ws < X0.cols →
      ∃ accs : List ℚ, time_segment_matching (X0 :: rest) ws = .ok accs ∧
        accs.length = (X0 :: rest).length) := by
  constructor
  · intro data ws
    match data with
    | [] => simp [time_segment_matching]
    | X0 :: rest =>
        simp only [time_segment_matching]
        split_ifs <;> simp
  · intro X0 rest ws _ h
    exact ⟨_, tsm_eq_ok X0 rest ws h, by simp⟩

/-- Witness for C7: a mismatched pair of shapes that is silently accepted. -/
theorem c7_no_shape_validation_witness :
    Mat.cols [[(0 : ℚ), 1, 2, 3]] ≠ Mat.cols [[(0 : ℚ), 1, 2, 3, 4]] ∧
    (∃ accs, time_segment_matching [[[(0 : ℚ), 1, 2, 3]], [[(0 : ℚ), 1, 2, 3, 4]]] 3 =
        .ok accs ∧
      accs.length = ([[[(0 : ℚ), 1, 2, 3]], [[(0 : ℚ), 1, 2, 3, 4]]] : List Mat).length) :=
  ⟨by decide,
    c7_no_shape_validation.2 [[(0 : ℚ), 1, 2, 3]] [[[(0 : ℚ), 1, 2, 3, 4]]] 3 (by decide)
      (by decide)⟩

/-- Counterexample for C7 as stated: subjects of different shapes do not make
the procedure fail with ShapeMismatchError; the run completes and returns
accuracies. -/
theorem c7_counterexample :
    Mat.cols [[(0 : ℚ), 1, 2, 3]] ≠ Mat.cols [[(0 : ℚ), 1, 2, 3, 4]] ∧
    time_segment_matching [[[(0 : ℚ), 1, 2, 3]], [[(0 : ℚ), 1, 2, 3, 4]]] 3 = .ok [1, 1] ∧
    time_segment_matching [[[(0 : ℚ), 1, 2, 3]], [[(0 : ℚ), 1, 2, 3, 4]]] 3 ≠
      .error .shapeMismatch := by
  have h2 : time_segment_matching [[[(0 : ℚ), 1, 2, 3]], [[(0 : ℚ), 1, 2, 3, 4]]] 3 =
      .ok [1, 1] := by
    norm_num [time_segment_matching, Mat.rows, Mat.cols, subjectAccuracy, maxIdx,
      subjectMasked, applyMask, corrMtx, maskCond, correctedTemplate, tstData, groupSum,
      segmentMatrix, matZero, Mat.add, Mat.sub, Mat.entry, Mat.col, pearsonEntry, covSum,
      devSq, mean, npArgmax, argmaxAux, CorrEntry.lt, CorrEntry.le, valLe, normPair,
      List.range_succ]
  exact ⟨by decide, h2, by rw [h2]; simp⟩

/-- Claim C8 (amended): with zero subjects the procedure fails immediately,
but with Python's IndexError from reading data[0].shape, not with a dedicated
EmptyInputError. -/
theorem c8_empty_input (ws : ℕ) :
    time_segment_matching [] ws = .error .pythonIndexError := rfl

/-- Witness for C8 at a concrete window size. -/
theorem c8_empty_input_witness :
    time_segment_matching [] 7 = .error .pythonIndexError :=
  c8_empty_input 7

/-- Counterexample for C8 as stated: the failure on the empty input is not the
EmptyInputError named by the specification. -/
theorem c8_counterexample :
    time_segment_matching [] 10 ≠ .error .emptyInput ∧
    time_segment_matching [] 10 = .error .pythonIndexError :=
  ⟨by decide, by decide⟩

/-- Claim C9: every successful run returns one accuracy per subject, each in
the interval from 0 to 1, and the aggregate mean lies between every lower
bound and every upper bound of the per-subject accuracies, in particular
between their minimum and maximum. -/
theorem c9_result_bounds (data : List Mat) (ws : ℕ) (accs : List ℚ)
    (h : time_segment_matching data ws = .ok accs) :
    accs.length = data.length ∧
    (∀ a ∈ accs, 0 ≤ a ∧ a ≤ 1) ∧
    (∀ lb : ℚ, (∀ a ∈ accs, lb ≤ a) → lb ≤ meanAccuracy accs) ∧
    (∀ ub : ℚ, (∀ a ∈ accs, a ≤ ub) → meanAccuracy accs ≤ ub) := by
  match data with
  | [] => exact absurd h (by simp [time_segment_matching])
  | X0 :: rest =>
      by_cases h1 : X0.cols < ws
      · simp only [time_segment_matching] at h
        rw [if_pos h1] at h
        exact absurd h (by simp)
      · by_cases h2 : X0.cols = ws
        · simp only [time_segment_matching] at h
          rw [if_neg h1, if_pos h2] at h
          exact absurd h (by simp)
        · have hws : ws < X0.cols := by omega
          have hok := (tsm_eq_ok X0 rest ws hws).symm.trans h
          have haccs : accs = (List.range (X0 :: rest).length).map fun i =>
              subjectAccuracy X0.rows ws (X0.cols - ws) (X0 :: rest) i :=
            (Except.ok.inj hok).symm
          subst haccs
          have hseg : 0 < X0.cols - ws := by omega
          have hlenpos : (0 : ℚ) <
              (((List.range (X0 :: rest).length).map fun i =>
                subjectAccuracy X0.rows ws (X0.cols - ws) (X0 :: rest) i).length : ℚ) := by
            simp
            positivity
          refine ⟨by simp, ?_, ?_, ?_⟩
          · intro a ha
            obtain ⟨i, -, rfl⟩ := List.mem_map.mp ha
            exact ⟨subjectAccuracy_nonneg _ _ _ _ _,
              subjectAccuracy_le_one _ _ _ _ _ hseg⟩
          · intro lb hlb
            unfold meanAccuracy
            rw [le_div_iff hlenpos]
            have := list_le_sum _ lb hlb
            linarith
          · intro ub hub
            unfold meanAccuracy
            rw [div_le_iff hlenpos]
            have := list_sum_le _ ub hub
            linarith

/-- Witness for C9 at a concrete successful run. -/
theorem c9_result_bounds_witness :
    ([1, 1] : List ℚ).length = ([[[(0 : ℚ), 1]], [[(0 : ℚ), 1]]] : List Mat).length ∧
    (∀ a ∈ ([1, 1] : List ℚ), 0 ≤ a ∧ a ≤ 1) ∧
    (∀ lb : ℚ, (∀ a ∈ ([1, 1] : List ℚ), lb ≤ a) → lb ≤ meanAccuracy [1, 1]) ∧
    (∀ ub : ℚ, (∀ a ∈ ([1, 1] : List ℚ), a ≤ ub) → meanAccuracy [1, 1] ≤ ub) :=
  c9_result_bounds [[[(0 : ℚ), 1]], [[(0 : ℚ), 1]]] 1 [1, 1]
    (by norm_num [time_segment_matching, Mat.rows, Mat.cols, subjectAccuracy, maxIdx,
      subjectMasked, applyMask, corrMtx, maskCond, correctedTemplate, tstData, groupSum,
      segmentMatrix, matZero, Mat.add, Mat.sub, Mat.entry, Mat.col, pearsonEntry, covSum,
      devSq, mean, npArgmax, argmaxAux, CorrEntry.lt, CorrEntry.le, valLe, normPair,
      List.range_succ])

/-- Claim C10: when 0 < nseg ≤ win_size the exclusion mask covers every
off-diagonal pair, the argmax of every row is its own diagonal index, and
every subject's accuracy is exactly 1 regardless of the data values. -/
theorem c10_degenerate_window (X0 : Mat) (rest : List Mat) (ws : ℕ)
    (h1 : ws < X0.cols) (h2 : X0.cols - ws ≤ ws) :
    (∀ i p q, p < X0.cols - ws → q < X0.cols - ws → p ≠ q →
      ((subjectMasked X0.rows ws (X0.cols - ws) (X0 :: rest) i).getD p []).getD q .ninf =
        .ninf) ∧
    (∀ i p, p < X0.cols - ws →
      (maxIdx X0.rows ws (X0.cols - ws) (X0 :: rest) i).getD p 0 = p) ∧
    time_segment_matching (X0 :: rest) ws = .ok (List.replicate (X0 :: rest).length 1) := by
  refine ⟨?_, ?_, ?_⟩
  · intro i p q hp hq hpq
    rw [subjectMasked_entry _ _ _ _ _ _ _ hp hq, if_pos ⟨by omega, hpq⟩]
  · intro i p hp
    rw [maxIdx_getD _ _ _ _ _ _ hp]
    exact npArgmax_degenerate_row _ _ _ _ _ _ hp h2
  · rw [tsm_eq_ok X0 rest ws h1]
    congr 1
    have hmap : ((List.range (X0 :: rest).length).map fun i =>
        subjectAccuracy X0.rows ws (X0.cols - ws) (X0 :: rest) i) =
        (List.range (X0 :: rest).length).map fun _ => (1 : ℚ) :=
      List.map_congr_left fun i _ =>
        subjectAccuracy_degenerate X0.rows ws (X0.cols - ws) (X0 :: rest) i (by omega) h2
    rw [hmap]
    apply List.eq_replicate.mpr
    refine ⟨by simp, ?_⟩
    intro b hb
    obtain ⟨i, -, rfl⟩ := List.mem_map.mp hb
    rfl

/-- Witness for C10 at a concrete input with nseg = 1 and win_size = 2. -/
theorem c10_degenerate_window_witness :
    2 < Mat.cols [[(1 : ℚ), 2, 3]] ∧
    ((∀ i p q, p < Mat.cols [[(1 : ℚ), 2, 3]] - 2 → q < Mat.cols [[(1 : ℚ), 2, 3]] - 2 →
      p ≠ q →
      ((subjectMasked (Mat.rows [[(1 : ℚ), 2, 3]]) 2 (Mat.cols [[(1 : ℚ), 2, 3]] - 2)
        [[[(1 : ℚ), 2, 3]]] i).getD p []).getD q .ninf = .ninf) ∧
    (∀ i p, p < Mat.cols [[(1 : ℚ), 2, 3]] - 2 →
      (maxIdx (Mat.rows [[(1 : ℚ), 2, 3]]) 2 (Mat.cols [[(1 : ℚ), 2, 3]] - 2)
        [[[(1 : ℚ), 2, 3]]] i).getD p 0 = p) ∧
    time_segment_matching [[[(1 : ℚ), 2, 3]]] 2 =
      .ok (List.replicate ([[[(1 : ℚ), 2, 3]]] : List Mat).length 1)) :=
  ⟨by decide, c10_degenerate_window [[(1 : ℚ), 2, 3]] [] 2 (by decide) (by decide)⟩

end SRMSpec
